import Mathlib

/-!
Verification development for the task-scheduling core of the repository
(src/apps/agent/scheduler/time_slots.py, src/apps/agent/scheduler/scheduling_algorithm.py,
src/apps/agent/services/task_scheduler.py).

Shallow embedding conventions:
* Timestamps are minutes since an epoch that falls on a Monday midnight, as natural
  numbers.  A calendar day is 1440 minutes; the day index of a timestamp t is t / 1440;
  its weekday is (t / 1440) % 7 with Monday = 0, matching Python datetime.weekday().
* Python float durations (hours) are modelled as rationals.
* Python dicts keyed by TimeSlot or task id are modelled as association lists with
  dict semantics (dictInsert replaces the existing binding of a key, else appends).
* Task identifiers (Notion page ids) are natural numbers.
* Loops whose Python counterparts advance a time cursor are written with an explicit
  fuel argument that bounds the iteration count, so every definition is structurally
  recursive and kernel-evaluable.  With positive slot duration the fuel is sufficient
  and the functions compute exactly the Python loop results; with slot duration 0 the
  Python loops would not terminate, and the wrappers return the unmodified state.
-/

namespace EvanmSched

/-- One time slot, Python class TimeSlot (time_slots.py lines 14-29).  Equality and
hashing in Python are structural on (start, end); the field end is renamed endTime
because end is a Lean keyword. -/
structure TimeSlot where
  start : ℕ
  endTime : ℕ
deriving DecidableEq, Repr

/-- Configuration part of Python class TimeSlotManager (time_slots.py lines 35-45).
The mutable occupied_slots dict is threaded explicitly through the functions below. -/
structure TimeSlotManager where
  work_start_hour : ℕ
  work_end_hour : ℕ
  slot_duration_minutes : ℕ
  schedule_days_ahead : ℕ
deriving DecidableEq, Repr

/-- Association-list lookup with Python dict semantics (first binding of the key). -/
def dictLookup {α β : Type} [DecidableEq α] : List (α × β) → α → Option β
  | [], _ => none
  | p :: rest, k => if p.1 = k then some p.2 else dictLookup rest k

/-- Association-list insert with Python dict semantics: replace the binding of an
existing key in place, otherwise append the new binding at the end. -/
def dictInsert {α β : Type} [DecidableEq α] : List (α × β) → α → β → List (α × β)
  | [], k, v => [(k, v)]
  | p :: rest, k, v => if p.1 = k then (k, v) :: rest else p :: dictInsert rest k v

/-- Inner loop of TimeSlotManager._generate_day_slots (time_slots.py lines 103-106):
while current_time < end_time, emit TimeSlot(current_time, current_time + duration)
and advance by duration.  fuel bounds the iteration count; endTime - current suffices
whenever 0 < dur. -/
def day_slots_go (dur endTime : ℕ) : ℕ → ℕ → List TimeSlot
  | 0, _ => []
  | fuel + 1, current =>
    if current < endTime then
      ⟨current, current + dur⟩ :: day_slots_go dur endTime fuel (current + dur)
    else []

/-- TimeSlotManager._generate_day_slots (time_slots.py lines 89-108).  dayStart is the
midnight of the day (a multiple of 1440). -/
def _generate_day_slots (mgr : TimeSlotManager) (dayStart : ℕ) : List TimeSlot :=
  let current := dayStart + mgr.work_start_hour * 60
  let endTime := dayStart + mgr.work_end_hour * 60
  if 0 < mgr.slot_duration_minutes then
    day_slots_go mgr.slot_duration_minutes endTime (endTime - current) current
  else []

/-- TimeSlotManager.generate_work_slots (time_slots.py lines 51-87): for each calendar
day in [start_date truncated to midnight, + days), whose weekday is Monday..Friday,
generate the day slots; then drop slots whose start is strictly before now. -/
def generate_work_slots (mgr : TimeSlotManager) (start_date : ℕ) (days : ℕ)
    (now : ℕ) : List TimeSlot :=
  let current0 := start_date / 1440 * 1440
  let slots := ((List.range days).map (fun i =>
    let d := current0 + i * 1440
    if d / 1440 % 7 < 5 then _generate_day_slots mgr d else [])).flatten
  slots.filter (fun s => decide (now ≤ s.start))

/-- TimeSlotManager._slots_overlap (time_slots.py lines 249-251). -/
def _slots_overlap (s1 s2 : TimeSlot) : Bool :=
  decide (s1.start < s2.endTime) && decide (s1.endTime > s2.start)

/-- TimeSlotManager.get_available_slots (time_slots.py lines 233-247): keep the slots
that overlap no occupied entry. -/
def get_available_slots (occupied : List (TimeSlot × ℕ)) (all_slots : List TimeSlot) :
    List TimeSlot :=
  all_slots.filter (fun s => !(occupied.any (fun p => _slots_overlap s p.1)))

/-- Loop of TimeSlotManager.mark_slots_occupied (time_slots.py lines 219-231): while
current < end_time, insert TimeSlot(current, min (current + dur) end_time) mapped to
task_id and advance by dur.  fuel bounds the iterations. -/
def mark_slots_go (dur end_time task_id : ℕ) :
    ℕ → List (TimeSlot × ℕ) → ℕ → List (TimeSlot × ℕ)
  | 0, occ, _ => occ
  | fuel + 1, occ, current =>
    if current < end_time then
      mark_slots_go dur end_time task_id fuel
        (dictInsert occ ⟨current, min (current + dur) end_time⟩ task_id) (current + dur)
    else occ

/-- TimeSlotManager.mark_slots_occupied (time_slots.py lines 219-231). -/
def mark_slots_occupied (mgr : TimeSlotManager) (occ : List (TimeSlot × ℕ))
    (start_time end_time task_id : ℕ) : List (TimeSlot × ℕ) :=
  if 0 < mgr.slot_duration_minutes then
    mark_slots_go mgr.slot_duration_minutes end_time task_id (end_time - start_time)
      occ start_time
  else occ

/-- Inner check of TimeSlotManager._find_contiguous_slots (time_slots.py lines
162-182): starting from the first slot of a candidate run (whose day index is
first_day and whose end is current_end), consume k further slots, each of which must
start exactly at the accumulated end and lie on the same calendar day as the first
slot.  Returns the end time of the last slot of the run. -/
def run_from (first_day : ℕ) : ℕ → List TimeSlot → ℕ → Option ℕ
  | current_end, _, 0 => some current_end
  | _, [], _ + 1 => none
  | current_end, s :: rest, k + 1 =>
    if s.start = current_end ∧ s.start / 1440 = first_day then
      run_from first_day s.endTime rest k
    else none

/-- TimeSlotManager._find_contiguous_slots (time_slots.py lines 151-191): first-fit
scan over ascending candidate positions for slots_needed contiguous slots.  The Python
outer loop runs while i <= len(slots) - slots_needed, equivalently over every suffix of
length at least slots_needed. -/
def _find_contiguous_slots : List TimeSlot → ℕ → Option (ℕ × ℕ)
  | [], _ => none
  | s :: rest, slots_needed =>
    if slots_needed ≤ rest.length + 1 then
      match run_from (s.start / 1440) s.endTime rest (slots_needed - 1) with
      | some e => some (s.start, e)
      | none => _find_contiguous_slots rest slots_needed
    else none

/-- Slot count conversion in find_available_slot_range (time_slots.py line 128):
slots_needed = max(1, int(duration_hours * 60 / slot_duration_minutes)).  Python int()
truncates toward zero; for the values that survive max(1, .) this equals the floor. -/
def slots_needed_for (mgr : TimeSlotManager) (duration_hours : ℚ) : ℕ :=
  max 1 (Int.toNat ⌊duration_hours * 60 / (mgr.slot_duration_minutes : ℚ)⌋)

/-- TimeSlotManager.find_available_slot_range (time_slots.py lines 110-149), exactly
as in src: three data arguments.  With a prefer_before timestamp the search first runs
on the slots starting strictly before it and falls back to the full candidate list. -/
def find_available_slot_range (mgr : TimeSlotManager) (slots : List TimeSlot)
    (duration_hours : ℚ) (prefer_before : Option ℕ) : Option (ℕ × ℕ) :=
  let slots_needed := slots_needed_for mgr duration_hours
  match prefer_before with
  | some pb =>
    match _find_contiguous_slots (slots.filter (fun s => decide (s.start < pb)))
        slots_needed with
    | some r => some r
    | none => _find_contiguous_slots slots slots_needed
  | none => _find_contiguous_slots slots slots_needed

/-- Modelled from the spec: the call site scheduling_algorithm.py lines 330-335 passes
a fourth argument minimum_start_time to find_available_slot_range, but the function in
src/apps/agent/scheduler/time_slots.py accepts only three; the variant of time_slots.py
with minimum_start support is missing from src (only its caller and the test that
exercises it are present).  Spec section 4.2 requires the placement search to respect
minimum_start, so the model restricts the candidate slots to those starting no earlier
than minimum_start and then applies the src search unchanged. -/
def find_available_slot_range_min (mgr : TimeSlotManager) (slots : List TimeSlot)
    (duration_hours : ℚ) (prefer_before : Option ℕ) (minimum_start : Option ℕ) :
    Option (ℕ × ℕ) :=
  let candidates := match minimum_start with
    | some m => slots.filter (fun s => decide (m ≤ s.start))
    | none => slots
  find_available_slot_range mgr candidates duration_hours prefer_before

/-- A task record at the level consumed by extract_task_data (scheduling_algorithm.py
lines 113-136), after the typed Notion property accessors: duration_raw is the raw
"Est Duration Hrs" number (none models an absent or null number), due_date is the
start timestamp of the "Due date" property (for a date range only the start is used,
scheduling_algorithm.py lines 318-327), scheduled_date is the prior "Scheduled Date"
as start plus optional end (the accessor _get_date_value returns a start/end pair when
the property has an end and a bare start timestamp otherwise), blocking_task_ids is
the "Blocked by" relation. -/
structure NotionTask where
  id : ℕ
  duration_raw : Option ℚ
  due_date : Option ℕ
  scheduled_date : Option (ℕ × Option ℕ)
  blocking_task_ids : List ℕ
deriving DecidableEq, Repr

/-- Duration extraction in extract_task_data (scheduling_algorithm.py line 119):
duration_hrs = number or 1.0.  A Python or-default replaces both an absent value and a
zero value by 1.0. -/
def extract_duration : Option ℚ → ℚ
  | none => 1
  | some d => if d = 0 then 1 else d

/-- dependency_graph.get(task_id, []) lookups used by _resolve_all_blocking_tasks. -/
def lookupGraph (g : List (ℕ × List ℕ)) (task_id : ℕ) : List ℕ :=
  (dictLookup g task_id).getD []

/-- Recursion of _resolve_all_blocking_tasks (scheduling_algorithm.py lines 162-199):
if task_id is on the current path, the circular dependency is logged and the branch
contributes nothing; otherwise union the direct blockers with the recursive resolution
of each blocker, each child receiving a copy of the path extended by task_id.  The
Python function returns list(set(...)); this model returns a list with the same
membership.  fuel bounds the recursion depth; g.length + 1 always suffices because
every recursive step adds a distinct graph key to the path. -/
def resolve_go (g : List (ℕ × List ℕ)) : ℕ → ℕ → List ℕ → List ℕ
  | 0, _, _ => []
  | fuel + 1, task_id, visited =>
    if task_id ∈ visited then []
    else
      let blocking := lookupGraph g task_id
      blocking ++ (blocking.map (fun b => resolve_go g fuel b (task_id :: visited))).flatten

/-- _resolve_all_blocking_tasks (scheduling_algorithm.py lines 162-199). -/
def _resolve_all_blocking_tasks (g : List (ℕ × List ℕ)) (task_id : ℕ)
    (visited : List ℕ) : List ℕ :=
  resolve_go g (g.length + 1) task_id visited

/-- _build_dependency_graph (scheduling_algorithm.py lines 138-160): a dict mapping
each task id to its blocking ids; a duplicated id keeps the last record. -/
def _build_dependency_graph (tasks : List NotionTask) : List (ℕ × List ℕ) :=
  tasks.foldl (fun g t => dictInsert g t.id t.blocking_task_ids) []

/-- The statistics record returned by schedule_tasks (scheduling_algorithm.py line 211). -/
structure Stats where
  scheduled : ℕ
  rescheduled : ℕ
  skipped : ℕ
  errors : ℕ
deriving DecidableEq, Repr

/-- The mutable state threaded through one scheduling cycle: the occupancy map
(TimeSlotManager.occupied_slots), the per-cycle scheduled_tasks dict mapping a task id
to its placed (start, end), and the statistics. -/
structure SchedState where
  occupied : List (TimeSlot × ℕ)
  scheduled_tasks : List (ℕ × (ℕ × ℕ))
  stats : Stats
deriving DecidableEq, Repr

def bumpScheduled (st : SchedState) : Stats :=
  { st.stats with scheduled := st.stats.scheduled + 1 }

def bumpRescheduled (st : SchedState) : Stats :=
  { st.stats with rescheduled := st.stats.rescheduled + 1 }

def bumpSkipped (st : SchedState) : SchedState :=
  { st with stats := { st.stats with skipped := st.stats.skipped + 1 } }

def bumpErrors (st : SchedState) : SchedState :=
  { st with stats := { st.stats with errors := st.stats.errors + 1 } }

/-- The body of the per-task loop of schedule_tasks (scheduling_algorithm.py lines
227-373).  update_ok models the outcome of _update_scheduled_date (the external
task-store write; in dry-run mode it is constantly true).  Each branch mirrors the
source: the dead no-duration skip (lines 233-238, unreachable because extract_duration
never returns 0), the skip on blockers outside the schedulable list (lines 266-276),
the skip on blockers not yet placed this cycle (lines 280-290), the minimum start
bound as the max end of placed blockers (lines 293-298), the per-task error when the
prior Scheduled Date has no end (line 307 subscripts a bare datetime, raising a
TypeError that the task-level handler counts as an error), the placement search on
currently available slots with the due date as soft preference, marking and recording
on a successful write, an error on a failed write, and a skip when no range exists. -/
def process_task (mgr : TimeSlotManager) (update_ok : ℕ → Bool)
    (all_slots : List TimeSlot) (g : List (ℕ × List ℕ)) (batch_ids : List ℕ)
    (st : SchedState) (task : NotionTask) : SchedState :=
  let duration_hrs := extract_duration task.duration_raw
  if duration_hrs = 0 then bumpSkipped st
  else
    let blocking_task_ids := _resolve_all_blocking_tasks g task.id []
    let blocking_end_times := blocking_task_ids.filterMap
      (fun b => (dictLookup st.scheduled_tasks b).map Prod.snd)
    let unscheduled_blockers := blocking_task_ids.filter
      (fun b => decide (dictLookup st.scheduled_tasks b = none) && decide (b ∈ batch_ids))
    let non_schedulable_blockers := blocking_task_ids.filter
      (fun b => decide (dictLookup st.scheduled_tasks b = none) && !decide (b ∈ batch_ids))
    if blocking_task_ids ≠ [] ∧ non_schedulable_blockers ≠ [] then bumpSkipped st
    else if blocking_task_ids ≠ [] ∧ unscheduled_blockers ≠ [] then bumpSkipped st
    else
      let minimum_start_time : Option ℕ :=
        if blocking_task_ids ≠ [] ∧ blocking_end_times ≠ [] then
          some (blocking_end_times.foldl max 0)
        else none
      match task.scheduled_date with
      | some (_, none) => bumpErrors st
      | sd =>
        let available_slots := get_available_slots st.occupied all_slots
        let prefer_before := task.due_date
        match find_available_slot_range_min mgr available_slots duration_hrs
            prefer_before minimum_start_time with
        | some (start_time, end_time) =>
          if update_ok task.id then
            { occupied := mark_slots_occupied mgr st.occupied start_time end_time task.id
              scheduled_tasks := dictInsert st.scheduled_tasks task.id (start_time, end_time)
              stats := if sd.isSome then bumpRescheduled st else bumpScheduled st }
          else bumpErrors st
        | none => bumpSkipped st

/-- The initial per-cycle state: occupied slots cleared (scheduling_algorithm.py line
214), no task placed, zero statistics. -/
def initState : SchedState := ⟨[], [], ⟨0, 0, 0, 0⟩⟩

/-- The per-task loop of schedule_tasks from an arbitrary intermediate state; the
state after any prefix of the batch is an application of this function. -/
def schedule_tasks_from (mgr : TimeSlotManager) (update_ok : ℕ → Bool)
    (all_slots : List TimeSlot) (g : List (ℕ × List ℕ)) (batch_ids : List ℕ)
    (st : SchedState) (tasks : List NotionTask) : SchedState :=
  tasks.foldl (process_task mgr update_ok all_slots g batch_ids) st

/-- schedule_tasks (scheduling_algorithm.py lines 201-375): clear the occupancy map,
generate the work slots for the lookahead window starting now, build the dependency
graph and the batch id list, then process the tasks in the given (rank) order. -/
def schedule_tasks (mgr : TimeSlotManager) (update_ok : ℕ → Bool) (now : ℕ)
    (tasks : List NotionTask) : SchedState :=
  let all_slots := generate_work_slots mgr now mgr.schedule_days_ahead now
  let g := _build_dependency_graph tasks
  let batch_ids := tasks.map (fun t => t.id)
  schedule_tasks_from mgr update_ok all_slots g batch_ids initState tasks

/-- fetch_schedulable_tasks (scheduling_algorithm.py lines 37-111) observed through
its error behaviour: the whole query and filtering body sits in a try block whose
except handler logs and returns the empty list, so a failed fetch is indistinguishable
from an empty batch.  The filtering itself is external CRUD and is abstracted: a
successful query yields the already-filtered, rank-ordered batch. -/
def fetch_schedulable_tasks (query_result : Except Unit (List NotionTask)) :
    List NotionTask :=
  match query_result with
  | Except.ok tasks => tasks
  | Except.error _ => []

/-- run_scheduling_cycle (services/task_scheduler.py lines 202-240): fetch the batch;
an empty batch returns the all-zero statistics without any per-task processing;
otherwise run schedule_tasks.  The except branch returning errors = 1 is reachable
only if schedule_tasks itself raises, which it does not. -/
def run_scheduling_cycle (mgr : TimeSlotManager) (update_ok : ℕ → Bool) (now : ℕ)
    (query_result : Except Unit (List NotionTask)) : Stats :=
  let tasks := fetch_schedulable_tasks query_result
  if tasks.isEmpty then ⟨0, 0, 0, 0⟩
  else (schedule_tasks mgr update_ok now tasks).stats

end EvanmSched

namespace EvanmSched

/-! ### Concrete fixtures used by witnesses and counterexamples -/

/-- The default configuration of TimeSlotManager (time_slots.py lines 35-45). -/
def mgrDefault : TimeSlotManager := ⟨9, 17, 15, 7⟩

/-- The configuration of the repository test test_skipped_task_preserves_existing_schedule
(test_scheduling_algorithm.py lines 47-53): work 9-13, 60-minute slots, 2 days ahead. -/
def mgrSmall : TimeSlotManager := ⟨9, 13, 60, 2⟩

/-- Dry-run write outcome: every external update succeeds. -/
def updAll : ℕ → Bool := fun _ => true

/-- Monday 09:00 of day 0 in minutes. -/
def monday9 : ℕ := 540

/-! ### Helper lemmas about run lengths (for C3) -/

lemma run_from_end_eq (dur fd : ℕ) :
    ∀ (k : ℕ) (rest : List TimeSlot) (ce e : ℕ),
    (∀ s ∈ rest, s.endTime = s.start + dur) →
    run_from fd ce rest k = some e → e = ce + k * dur := by
  intro k
  induction k with
  | zero =>
    intro rest ce e _ h
    simp [run_from] at h
    omega
  | succ k ih =>
    intro rest ce e huni h
    cases rest with
    | nil => simp [run_from] at h
    | cons s rest2 =>
      simp only [run_from] at h
      split at h
      · rename_i hcond
        have he := ih rest2 s.endTime e (fun t ht => huni t (List.mem_cons_of_mem _ ht)) h
        have hs := huni s (List.mem_cons_self _ _)
        have hce := hcond.1
        rw [Nat.succ_mul]
        omega
      · exact absurd h (by simp)

lemma find_contiguous_end (dur : ℕ) :
    ∀ (slots : List TimeSlot) (needed a b : ℕ),
    (∀ s ∈ slots, s.endTime = s.start + dur) → 1 ≤ needed →
    _find_contiguous_slots slots needed = some (a, b) → b = a + needed * dur := by
  intro slots
  induction slots with
  | nil => intro needed a b _ _ h; simp [_find_contiguous_slots] at h
  | cons s rest ih =>
    intro needed a b huni hone h
    simp only [_find_contiguous_slots] at h
    split at h
    · cases hrun : run_from (s.start / 1440) s.endTime rest (needed - 1) with
      | some e =>
        rw [hrun] at h
        simp at h
        obtain ⟨ha, hb⟩ := h
        have he := run_from_end_eq dur (s.start / 1440) (needed - 1) rest s.endTime e
          (fun t ht => huni t (List.mem_cons_of_mem _ ht)) hrun
        have hs := huni s (List.mem_cons_self _ _)
        subst ha hb
        have : dur + (needed - 1) * dur = needed * dur := by
          have : needed - 1 + 1 = needed := by omega
          calc dur + (needed - 1) * dur = (needed - 1 + 1) * dur := by ring
          _ = needed * dur := by rw [this]
        omega
      | none =>
        rw [hrun] at h
        exact ih needed a b (fun t ht => huni t (List.mem_cons_of_mem _ ht)) hone h
    · exact absurd h (by simp)

lemma slots_needed_pos (mgr : TimeSlotManager) (d : ℚ) : 1 ≤ slots_needed_for mgr d := by
  simp [slots_needed_for]

/-- Claim C3 (amended): every placement returned by find_available_slot_range covers
exactly max 1 (floor of duration_hours * 60 / slot_duration_minutes) atomic slots —
the Python conversion truncates instead of taking the ceiling — provided every
candidate slot has the configured length.  In particular a 2.5h task on 15-minute
slots covers exactly 10 slots. -/
theorem C3_slot_count (mgr : TimeSlotManager) (slots : List TimeSlot) (d : ℚ)
    (pb : Option ℕ) (a b : ℕ)
    (huni : ∀ s ∈ slots, s.endTime = s.start + mgr.slot_duration_minutes)
    (hres : find_available_slot_range mgr slots d pb = some (a, b)) :
    b = a + slots_needed_for mgr d * mgr.slot_duration_minutes := by
  have hone := slots_needed_pos mgr d
  unfold find_available_slot_range at hres
  cases pb with
  | none =>
    exact find_contiguous_end mgr.slot_duration_minutes slots _ a b huni hone hres
  | some pbv =>
    simp only at hres
    cases hfirst : _find_contiguous_slots
        (slots.filter (fun s => decide (s.start < pbv))) (slots_needed_for mgr d) with
    | some r =>
      rw [hfirst] at hres
      simp at hres
      subst hres
      exact find_contiguous_end mgr.slot_duration_minutes _ _ a b
        (fun t ht => huni t (List.mem_of_mem_filter ht)) hone hfirst
    | none =>
      rw [hfirst] at hres
      exact find_contiguous_end mgr.slot_duration_minutes slots _ a b huni hone hres

set_option maxRecDepth 100000 in
/-- Witness for C3_slot_count: a 2.5-hour task searched over ten 15-minute slots is
placed on the range 540-690, i.e. exactly 10 slots, matching the amended formula. -/
theorem C3_slot_count_witness :
    find_available_slot_range mgrDefault
        ((List.range 10).map (fun i => ⟨540 + 15 * i, 555 + 15 * i⟩)) (5 / 2) none
      = some (540, 690) ∧
    (690 : ℕ) = 540 + slots_needed_for mgrDefault (5 / 2) * mgrDefault.slot_duration_minutes := by
  constructor
  · with_unfolding_all decide
  · exact C3_slot_count mgrDefault
      ((List.range 10).map (fun i => ⟨540 + 15 * i, 555 + 15 * i⟩)) (5 / 2) none 540 690
      (by decide) (by with_unfolding_all decide)

set_option maxRecDepth 100000 in
/-- Counterexample to claim C3 as stated: with duration_hours = 2.6 and 15-minute
slots the ceiling formula demands 11 slots, but the code places the task on exactly
10 slots (Python int() truncates the quotient 10.4). -/
theorem C3_counterexample :
    find_available_slot_range mgrDefault
        ((List.range 11).map (fun i => ⟨540 + 15 * i, 555 + 15 * i⟩)) (13 / 5) none
      = some (540, 690) ∧
    (690 - 540) / mgrDefault.slot_duration_minutes = 10 ∧
    Int.toNat ⌈(13 / 5 : ℚ) * 60 / (mgrDefault.slot_duration_minutes : ℚ)⌉ = 11 ∧
    (10 : ℕ) ≠ 11 := by
  refine ⟨by with_unfolding_all decide, by decide, ?_, by decide⟩
  have h : ⌈(13 / 5 : ℚ) * 60 / (mgrDefault.slot_duration_minutes : ℚ)⌉ = (11 : ℤ) := by
    rw [Int.ceil_eq_iff]
    constructor <;> norm_num [mgrDefault]
  rw [h]
  rfl

end EvanmSched

namespace EvanmSched

/-! ### Claim C6: absent or zero duration -/

/-- Claim C6 (amended): a task whose raw duration is absent or zero is given the
default duration of 1.0 hour by extract_task_data (the Python or-default at
scheduling_algorithm.py line 119) and is scheduled normally; consequently
extract_duration never returns 0 and the no-duration skip branch of schedule_tasks
(lines 233-238) is unreachable. -/
theorem C6_default_duration (raw : Option ℚ) (h : raw = none ∨ raw = some 0) :
    extract_duration raw = 1 ∧ ∀ r : Option ℚ, extract_duration r ≠ 0 := by
  constructor
  · rcases h with h | h <;> simp [h, extract_duration]
  · intro r
    cases r with
    | none => simp [extract_duration]
    | some d =>
      simp only [extract_duration]
      split
      · simp
      · assumption

/-- Witness for C6_default_duration at the concrete input none. -/
theorem C6_default_duration_witness :
    extract_duration none = 1 ∧ ∀ r : Option ℚ, extract_duration r ≠ 0 :=
  C6_default_duration none (Or.inl rfl)

set_option maxRecDepth 400000 in
/-- Counterexample to claim C6 as stated: a task with an absent duration is not
treated as unschedulable: on a batch consisting of that single task, schedule_tasks
counts it as scheduled (skipped = 0), gives it a placement, and enters its identifier
into the occupancy map. -/
theorem C6_counterexample :
    (schedule_tasks mgrSmall updAll monday9 [⟨9, none, none, none, []⟩]).stats
        = ⟨1, 0, 0, 0⟩ ∧
    dictLookup (schedule_tasks mgrSmall updAll monday9 [⟨9, none, none, none, []⟩]).occupied
        ⟨540, 600⟩ = some 9 := by
  constructor
  · with_unfolding_all decide
  · with_unfolding_all decide

/-! ### Claim C8: fetch failure -/

/-- Claim C8 (amended): when the initial fetch of the task batch fails, the cycle
aborts early with no per-task processing and returns the zero-progress statistics;
the error count of that result is 0, not elevated, because fetch_schedulable_tasks
catches the failure internally and returns the empty list, which run_scheduling_cycle
cannot distinguish from an empty batch. -/
theorem C8_fetch_failure_zero_stats (mgr : TimeSlotManager) (update_ok : ℕ → Bool)
    (now : ℕ) : run_scheduling_cycle mgr update_ok now (Except.error ()) = ⟨0, 0, 0, 0⟩ :=
  rfl

/-- Counterexample to claim C8 as stated: on a failed fetch the returned statistics
have error count 0, not a nonzero one. -/
theorem C8_counterexample :
    run_scheduling_cycle mgrSmall updAll monday9 (Except.error ()) = ⟨0, 0, 0, 0⟩ ∧
    (run_scheduling_cycle mgrSmall updAll monday9 (Except.error ())).errors = 0 := by
  exact ⟨rfl, rfl⟩

/-! ### Claim C7, counterexample part -/

/-- Counterexample to claim C7 as stated: with work hours 9-10 and 45-minute slots
(the slot duration does not divide the work-day length), generate_work_slots returns
the slot 585-630, whose end lies at minute 630 of the day, strictly beyond the work
end bound 10 * 60 = 600, so the slot is not contained in the configured work hours. -/
theorem C7_counterexample :
    (⟨585, 630⟩ : TimeSlot) ∈ generate_work_slots ⟨9, 10, 45, 1⟩ 0 1 0 ∧
    ¬((630 : ℕ) % 1440 ≤ 10 * 60) := by
  exact ⟨by decide, by decide⟩

end EvanmSched

namespace EvanmSched

/-! ### Claim C7: invariants of generate_work_slots -/

lemma day_slots_go_mem (dur endT : ℕ) :
    ∀ (fuel current : ℕ), ∀ s ∈ day_slots_go dur endT fuel current,
    current ≤ s.start ∧ s.start < endT ∧ s.endTime = s.start + dur := by
  intro fuel
  induction fuel with
  | zero => intro current s hs; simp [day_slots_go] at hs
  | succ fuel ih =>
    intro current s hs
    simp only [day_slots_go] at hs
    split at hs
    · rcases List.mem_cons.mp hs with h | h
      · subst h; simp_all
      · have := ih (current + dur) s h
        omega
    · simp at hs

lemma day_slots_go_end_le (dur endT : ℕ) :
    ∀ (fuel current : ℕ), dur ∣ (endT - current) →
    ∀ s ∈ day_slots_go dur endT fuel current, s.endTime ≤ endT := by
  intro fuel
  induction fuel with
  | zero => intro current _ s hs; simp [day_slots_go] at hs
  | succ fuel ih =>
    intro current hdvd s hs
    simp only [day_slots_go] at hs
    split at hs
    · rename_i hlt
      have hle : current + dur ≤ endT := by
        have h1 : dur ≤ endT - current := Nat.le_of_dvd (by omega) hdvd
        omega
      rcases List.mem_cons.mp hs with h | h
      · subst h; simpa using hle
      · have hdvd2 : dur ∣ (endT - (current + dur)) := by
          have : endT - (current + dur) = (endT - current) - dur := by omega
          rw [this]
          exact Nat.dvd_sub' hdvd dvd_rfl
        exact ih (current + dur) hdvd2 s h
    · simp at hs

lemma day_slots_go_sorted (dur endT : ℕ) :
    ∀ (fuel current : ℕ),
    (day_slots_go dur endT fuel current).Pairwise (fun a b => a.start + dur ≤ b.start) := by
  intro fuel
  induction fuel with
  | zero => intro current; simp [day_slots_go]
  | succ fuel ih =>
    intro current
    simp only [day_slots_go]
    split
    · refine List.Pairwise.cons ?_ (ih (current + dur))
      intro b hb
      have := day_slots_go_mem dur endT fuel (current + dur) b hb
      simp only
      omega
    · exact List.Pairwise.nil

lemma generate_day_mem (mgr : TimeSlotManager) (dayStart : ℕ)
    (hdiv : mgr.slot_duration_minutes ∣ (mgr.work_end_hour - mgr.work_start_hour) * 60) :
    ∀ s ∈ _generate_day_slots mgr dayStart,
    dayStart + mgr.work_start_hour * 60 ≤ s.start ∧
    s.start < dayStart + mgr.work_end_hour * 60 ∧
    s.endTime = s.start + mgr.slot_duration_minutes ∧
    s.endTime ≤ dayStart + mgr.work_end_hour * 60 := by
  intro s hs
  unfold _generate_day_slots at hs
  split at hs
  · have hmem := day_slots_go_mem mgr.slot_duration_minutes
      (dayStart + mgr.work_end_hour * 60) _ _ s hs
    have hdvd : mgr.slot_duration_minutes ∣
        ((dayStart + mgr.work_end_hour * 60) - (dayStart + mgr.work_start_hour * 60)) := by
      have heq : (dayStart + mgr.work_end_hour * 60) - (dayStart + mgr.work_start_hour * 60)
          = (mgr.work_end_hour - mgr.work_start_hour) * 60 := by
        rw [Nat.sub_mul]
        omega
      rw [heq]
      exact hdiv
    have hend := day_slots_go_end_le mgr.slot_duration_minutes
      (dayStart + mgr.work_end_hour * 60) _ _ hdvd s hs
    exact ⟨hmem.1, hmem.2.1, hmem.2.2, hend⟩
  · simp at hs

lemma div_of_between (D x : ℕ) (h1 : 1440 * D ≤ x) (h2 : x < 1440 * D + 1440) :
    x / 1440 = D := by
  have hx : x = 1440 * D + (x - 1440 * D) := by omega
  rw [hx, Nat.mul_add_div (by norm_num)]
  have : (x - 1440 * D) / 1440 = 0 := Nat.div_eq_of_lt (by omega)
  omega


/-- Claim C7 (amended): under a well-formed configuration (positive slot duration is
implied by divisibility on a nonempty window; the slot duration divides the work-day
length and work_end_hour is a valid Python hour, at most 23), every slot returned by
generate_work_slots has length exactly the configured slot duration, lies within the
work-hour window [work_start_hour, work_end_hour) of the single calendar day
containing its start, that day is a working day (Monday to Friday), no slot starts
before now, and the returned sequence is strictly ascending by start time.  Without
the divisibility condition the last slot of a day overruns work_end_hour, see the
counterexample. -/
theorem C7_work_slot_invariants (mgr : TimeSlotManager) (start_date days now : ℕ)
    (hdiv : mgr.slot_duration_minutes ∣ (mgr.work_end_hour - mgr.work_start_hour) * 60)
    (hwe : mgr.work_end_hour ≤ 23) :
    (∀ s ∈ generate_work_slots mgr start_date days now,
      s.endTime = s.start + mgr.slot_duration_minutes ∧
      s.start / 1440 * 1440 + mgr.work_start_hour * 60 ≤ s.start ∧
      s.endTime ≤ s.start / 1440 * 1440 + mgr.work_end_hour * 60 ∧
      s.start / 1440 % 7 < 5 ∧
      now ≤ s.start) ∧
    (generate_work_slots mgr start_date days now).Pairwise
      (fun a b => a.start < b.start) := by
  constructor
  · intro s hs
    simp only [generate_work_slots, List.mem_filter, decide_eq_true_eq] at hs
    obtain ⟨hmem, hnow⟩ := hs
    rw [List.mem_flatten] at hmem
    obtain ⟨chunk, hchunk, hschunk⟩ := hmem
    rw [List.mem_map] at hchunk
    obtain ⟨i, hi, rfl⟩ := hchunk
    by_cases hg : (start_date / 1440 * 1440 + i * 1440) / 1440 % 7 < 5
    · rw [if_pos hg] at hschunk
      have hmm := generate_day_mem mgr (start_date / 1440 * 1440 + i * 1440) hdiv s hschunk
      have hds : start_date / 1440 * 1440 + i * 1440 = 1440 * (start_date / 1440 + i) := by
        ring
      have hdix : s.start / 1440 = start_date / 1440 + i := by
        apply div_of_between
        · omega
        · omega
      have hgd : (start_date / 1440 * 1440 + i * 1440) / 1440 = start_date / 1440 + i := by
        rw [hds, Nat.mul_div_cancel_left _ (by norm_num : (0:ℕ) < 1440)]
      refine ⟨hmm.2.2.1, ?_, ?_, ?_, hnow⟩
      · rw [hdix]; omega
      · rw [hdix]; omega
      · rw [hdix]; rw [hgd] at hg; exact hg
    · rw [if_neg hg] at hschunk
      simp at hschunk
  · simp only [generate_work_slots]
    refine List.Pairwise.sublist (List.filter_sublist _) ?_
    rw [List.pairwise_flatten]
    constructor
    · intro l2 hl2
      rw [List.mem_map] at hl2
      obtain ⟨i, hi, rfl⟩ := hl2
      split
      · unfold _generate_day_slots
        split
        · rename_i hdur
          refine (day_slots_go_sorted _ _ _ _).imp ?_
          intro a b hab
          omega
        · exact List.Pairwise.nil
      · exact List.Pairwise.nil
    · rw [List.pairwise_map]
      refine (List.pairwise_lt_range days).imp ?_
      intro i j hij x hx y hy
      have hxi : x ∈ _generate_day_slots mgr (start_date / 1440 * 1440 + i * 1440) := by
        revert hx; split
        · exact fun h => h
        · intro h; simp at h
      have hyj : y ∈ _generate_day_slots mgr (start_date / 1440 * 1440 + j * 1440) := by
        revert hy; split
        · exact fun h => h
        · intro h; simp at h
      have hmx := generate_day_mem mgr _ hdiv x hxi
      have hmy := generate_day_mem mgr _ hdiv y hyj
      omega

set_option maxRecDepth 100000 in
/-- Witness for C7_work_slot_invariants at the default configuration (9-17 work
hours, 15-minute slots) over one day starting at the epoch. -/
theorem C7_work_slot_invariants_witness :
    ((15 : ℕ) ∣ (17 - 9) * 60 ∧ (17 : ℕ) ≤ 23) ∧
    ((∀ s ∈ generate_work_slots mgrDefault 0 1 0,
      s.endTime = s.start + mgrDefault.slot_duration_minutes ∧
      s.start / 1440 * 1440 + mgrDefault.work_start_hour * 60 ≤ s.start ∧
      s.endTime ≤ s.start / 1440 * 1440 + mgrDefault.work_end_hour * 60 ∧
      s.start / 1440 % 7 < 5 ∧
      0 ≤ s.start) ∧
    (generate_work_slots mgrDefault 0 1 0).Pairwise (fun a b => a.start < b.start)) :=
  ⟨⟨by decide, by decide⟩,
    C7_work_slot_invariants mgrDefault 0 1 0 (by decide) (by decide)⟩

end EvanmSched

namespace EvanmSched

/-! ### Claim C5: due date is a soft constraint -/

/-- A Boolean certificate that a list of slots chains on from a first slot: each
successive slot starts exactly at the accumulated end and lies on the day of the
first slot.  This mirrors the success condition of run_from. -/
def chain_ok (first_day : ℕ) : ℕ → List TimeSlot → Bool
  | _, [] => true
  | current_end, s :: rest =>
    decide (s.start = current_end) && decide (s.start / 1440 = first_day) &&
      chain_ok first_day s.endTime rest

/-- The end of a chained run started at current_end. -/
def chain_end : ℕ → List TimeSlot → ℕ
  | ce, [] => ce
  | _, s :: rest => chain_end s.endTime rest

/-- There is a contiguous run of exactly the needed length somewhere in the candidate
list: a decomposition into an irrelevant front part, a first slot, a chained
continuation of length needed - 1, and an irrelevant tail. -/
def HasContRun (slots : List TimeSlot) (needed : ℕ) : Prop :=
  ∃ l1 first run l2, slots = l1 ++ first :: (run ++ l2) ∧ run.length + 1 = needed ∧
    chain_ok (first.start / 1440) first.endTime run = true

lemma run_from_of_chain (fd : ℕ) :
    ∀ (run l2 : List TimeSlot) (ce : ℕ), chain_ok fd ce run = true →
    run_from fd ce (run ++ l2) run.length = some (chain_end ce run) := by
  intro run
  induction run with
  | nil => intro l2 ce _; simp [run_from, chain_end]
  | cons s rest ih =>
    intro l2 ce hchain
    simp only [chain_ok, Bool.and_eq_true, decide_eq_true_eq] at hchain
    simp only [List.cons_append, List.length_cons, run_from, chain_end]
    rw [if_pos ⟨hchain.1.1, hchain.1.2⟩]
    exact ih l2 s.endTime hchain.2

lemma find_contiguous_of_hasrun :
    ∀ (slots : List TimeSlot) (needed : ℕ), HasContRun slots needed →
    ∃ r, _find_contiguous_slots slots needed = some r := by
  intro slots
  induction slots with
  | nil =>
    intro needed h
    obtain ⟨l1, first, run, l2, hdec, _, _⟩ := h
    have := congrArg List.length hdec
    simp at this
    omega
  | cons s rest ih =>
    intro needed h
    obtain ⟨l1, first, run, l2, hdec, hlen, hchain⟩ := h
    have hguard : needed ≤ rest.length + 1 := by
      have := congrArg List.length hdec
      simp [List.length_append] at this
      omega
    cases l1 with
    | nil =>
      simp only [List.nil_append, List.cons.injEq] at hdec
      obtain ⟨hfs, hrest⟩ := hdec
      subst hfs
      have hrun := run_from_of_chain (s.start / 1440) run l2 s.endTime hchain
      refine ⟨(s.start, chain_end s.endTime run), ?_⟩
      simp only [_find_contiguous_slots]
      rw [if_pos hguard, hrest]
      have hn1 : needed - 1 = run.length := by omega
      rw [hn1, hrun]
    | cons t l1t =>
      simp only [List.cons_append, List.cons.injEq] at hdec
      obtain ⟨hts, hrest⟩ := hdec
      have htail : HasContRun rest needed := ⟨l1t, first, run, l2, hrest, hlen, hchain⟩
      obtain ⟨r, hr⟩ := ih needed htail
      simp only [_find_contiguous_slots]
      rw [if_pos hguard]
      cases hrf : run_from (s.start / 1440) s.endTime rest (needed - 1) with
      | some e => exact ⟨(s.start, e), rfl⟩
      | none => exact ⟨r, hr⟩

lemma find_contiguous_start_mem :
    ∀ (slots : List TimeSlot) (needed a b : ℕ),
    _find_contiguous_slots slots needed = some (a, b) → ∃ s ∈ slots, s.start = a := by
  intro slots
  induction slots with
  | nil => intro needed a b h; simp [_find_contiguous_slots] at h
  | cons s rest ih =>
    intro needed a b h
    simp only [_find_contiguous_slots] at h
    split at h
    · cases hrf : run_from (s.start / 1440) s.endTime rest (needed - 1) with
      | some e =>
        rw [hrf] at h
        simp at h
        exact ⟨s, List.mem_cons_self _ _, h.1⟩
      | none =>
        rw [hrf] at h
        obtain ⟨t, ht, hta⟩ := ih needed a b h
        exact ⟨t, List.mem_cons_of_mem _ ht, hta⟩
    · exact absurd h (by simp)

lemma find_contiguous_first_fit :
    ∀ (slots : List TimeSlot) (needed a b : ℕ),
    slots.Pairwise (fun u v => u.start ≤ v.start) →
    _find_contiguous_slots slots needed = some (a, b) →
    ∀ (l1 : List TimeSlot) (first : TimeSlot) (run l2 : List TimeSlot),
    slots = l1 ++ first :: (run ++ l2) → run.length + 1 = needed →
    chain_ok (first.start / 1440) first.endTime run = true →
    a ≤ first.start := by
  intro slots
  induction slots with
  | nil => intro needed a b _ h; simp [_find_contiguous_slots] at h
  | cons s rest ih =>
    intro needed a b hsorted hres l1 first run l2 hdec hlen hchain
    have hfirstmem : first ∈ s :: rest := by
      rw [hdec]
      exact List.mem_append_right _ (List.mem_cons_self _ _)
    simp only [_find_contiguous_slots] at hres
    split at hres
    · cases hrf : run_from (s.start / 1440) s.endTime rest (needed - 1) with
      | some e =>
        rw [hrf] at hres
        simp at hres
        rcases List.mem_cons.mp hfirstmem with h | h
        · rw [← hres.1, h]
        · rw [← hres.1]
          exact (List.pairwise_cons.mp hsorted).1 first h
      | none =>
        rw [hrf] at hres
        cases l1 with
        | nil =>
          simp only [List.nil_append, List.cons.injEq] at hdec
          obtain ⟨hfs, hrest⟩ := hdec
          subst hfs
          subst hrest
          have hrun := run_from_of_chain (s.start / 1440) run l2 s.endTime hchain
          have hn1 : needed - 1 = run.length := by omega
          rw [hn1, hrun] at hrf
          exact absurd hrf (by simp)
        | cons t l1t =>
          simp only [List.cons_append, List.cons.injEq] at hdec
          exact ih needed a b (List.pairwise_cons.mp hsorted).2 hres l1t first run l2
            hdec.2 hlen hchain
    · exact absurd hres (by simp)

/-- Claim C5: the due date is a soft preference of find_available_slot_range.  First
conjunct: whenever any contiguous run of the required length exists among the
candidate slots, a placement is returned (a due date never causes a None result).
Second conjunct: when the search over the slots starting strictly before prefer_before
succeeds, its result is returned unchanged and starts before prefer_before.  Third
conjunct: for candidates sorted by start time, the result of the before-deadline
search is first-fit: its start is at most the start of any contiguous run among the
before-deadline slots. -/
theorem C5_soft_deadline (mgr : TimeSlotManager) (slots : List TimeSlot) (d : ℚ)
    (pb : ℕ) (hrun : HasContRun slots (slots_needed_for mgr d)) :
    (∃ r, find_available_slot_range mgr slots d (some pb) = some r) ∧
    (∀ a b, _find_contiguous_slots (slots.filter (fun s => decide (s.start < pb)))
        (slots_needed_for mgr d) = some (a, b) →
      find_available_slot_range mgr slots d (some pb) = some (a, b) ∧ a < pb) ∧
    (slots.Pairwise (fun u v => u.start ≤ v.start) →
      ∀ a b (l1 : List TimeSlot) (first : TimeSlot) (run l2 : List TimeSlot),
        _find_contiguous_slots (slots.filter (fun s => decide (s.start < pb)))
          (slots_needed_for mgr d) = some (a, b) →
        slots.filter (fun s => decide (s.start < pb)) = l1 ++ first :: (run ++ l2) →
        run.length + 1 = slots_needed_for mgr d →
        chain_ok (first.start / 1440) first.endTime run = true →
        a ≤ first.start) := by
  refine ⟨?_, ?_, ?_⟩
  · unfold find_available_slot_range
    cases hfirst : _find_contiguous_slots
        (slots.filter (fun s => decide (s.start < pb))) (slots_needed_for mgr d) with
    | some r => exact ⟨r, by simp [hfirst]⟩
    | none =>
      obtain ⟨r, hr⟩ := find_contiguous_of_hasrun slots (slots_needed_for mgr d) hrun
      exact ⟨r, by simp [hfirst, hr]⟩
  · intro a b h
    refine ⟨by unfold find_available_slot_range; simp [h], ?_⟩
    obtain ⟨t, ht, hta⟩ := find_contiguous_start_mem _ _ a b h
    rw [List.mem_filter] at ht
    have := ht.2
    simp only [decide_eq_true_eq] at this
    omega
  · intro hsorted a b l1 first run l2 hres hdec hlen hchain
    exact find_contiguous_first_fit _ _ a b
      (hsorted.sublist (List.filter_sublist _)) hres l1 first run l2 hdec hlen hchain

set_option maxRecDepth 100000 in
/-- Witness for C5_soft_deadline: two contiguous 60-minute slots, a 1-hour task and a
deadline at 660; a run exists, so a placement is returned. -/
theorem C5_soft_deadline_witness :
    HasContRun [⟨540, 600⟩, ⟨600, 660⟩] (slots_needed_for mgrSmall 1) ∧
    (∃ r, find_available_slot_range mgrSmall [⟨540, 600⟩, ⟨600, 660⟩] 1 (some 660)
      = some r) := by
  have h : HasContRun [⟨540, 600⟩, ⟨600, 660⟩] (slots_needed_for mgrSmall 1) :=
    ⟨[], ⟨540, 600⟩, [], [⟨600, 660⟩], rfl, by with_unfolding_all decide, rfl⟩
  exact ⟨h, (C5_soft_deadline mgrSmall [⟨540, 600⟩, ⟨600, 660⟩] 1 660 h).1⟩

end EvanmSched

namespace EvanmSched

/-! ### Claim C9: every task contributes exactly one statistic -/

def statsTotal (s : Stats) : ℕ := s.scheduled + s.rescheduled + s.skipped + s.errors

lemma process_task_total (mgr : TimeSlotManager) (upd : ℕ → Bool)
    (all_slots : List TimeSlot) (g : List (ℕ × List ℕ)) (bids : List ℕ)
    (st : SchedState) (task : NotionTask) :
    statsTotal (process_task mgr upd all_slots g bids st task).stats
      = statsTotal st.stats + 1 := by
  simp only [process_task]
  repeat' split
  all_goals
    simp [bumpSkipped, bumpErrors, bumpScheduled, bumpRescheduled, statsTotal]
  all_goals omega

lemma schedule_tasks_from_total (mgr : TimeSlotManager) (upd : ℕ → Bool)
    (all_slots : List TimeSlot) (g : List (ℕ × List ℕ)) (bids : List ℕ) :
    ∀ (tasks : List NotionTask) (st : SchedState),
    statsTotal (schedule_tasks_from mgr upd all_slots g bids st tasks).stats
      = statsTotal st.stats + tasks.length := by
  intro tasks
  induction tasks with
  | nil => intro st; simp [schedule_tasks_from]
  | cons t rest ih =>
    intro st
    simp only [schedule_tasks_from, List.foldl_cons, List.length_cons]
    have h1 := process_task_total mgr upd all_slots g bids st t
    have h2 := ih (process_task mgr upd all_slots g bids st t)
    simp only [schedule_tasks_from] at h2
    omega

/-- Claim C9: schedule_tasks absorbs every per-task condition into the returned
statistics (the embedding is a total function, mirroring the per-task exception
handler; a failed external write and a malformed prior scheduled date are the error
paths), and every task in the batch contributes exactly one increment among the four
counters, so scheduled + rescheduled + skipped + errors equals the batch length. -/
theorem C9_stats_partition (mgr : TimeSlotManager) (upd : ℕ → Bool) (now : ℕ)
    (tasks : List NotionTask) :
    (schedule_tasks mgr upd now tasks).stats.scheduled
      + (schedule_tasks mgr upd now tasks).stats.rescheduled
      + (schedule_tasks mgr upd now tasks).stats.skipped
      + (schedule_tasks mgr upd now tasks).stats.errors = tasks.length := by
  have h := schedule_tasks_from_total mgr upd
    (generate_work_slots mgr now mgr.schedule_days_ahead now)
    (_build_dependency_graph tasks) (tasks.map (fun t => t.id)) tasks initState
  simpa [schedule_tasks, statsTotal, initState] using h

end EvanmSched

namespace EvanmSched

/-! ### Claim C10: transitive dependency resolution with cycle detection -/

/-- b transitively blocks a in the dependency graph: b is reachable from a along
"blocked by" edges. -/
inductive TransBlocker (g : List (ℕ × List ℕ)) : ℕ → ℕ → Prop where
  | direct {a b : ℕ} : b ∈ lookupGraph g a → TransBlocker g a b
  | step {a b c : ℕ} : b ∈ lookupGraph g a → TransBlocker g b c → TransBlocker g a c

/-- The dependency graph is acyclic: no task transitively blocks itself. -/
def Acyclic (g : List (ℕ × List ℕ)) : Prop := ∀ x, ¬ TransBlocker g x x

lemma transBlocker_trans {g : List (ℕ × List ℕ)} {a b c : ℕ}
    (h1 : TransBlocker g a b) (h2 : TransBlocker g b c) : TransBlocker g a c := by
  induction h1 with
  | direct h => exact TransBlocker.step h h2
  | step h _ ih => exact TransBlocker.step h (ih h2)

lemma lookupGraph_mem_keys {g : List (ℕ × List ℕ)} {t : ℕ}
    (h : lookupGraph g t ≠ []) : t ∈ g.map Prod.fst := by
  induction g with
  | nil => simp [lookupGraph, dictLookup] at h
  | cons p rest ih =>
    simp only [lookupGraph, dictLookup] at h
    by_cases hp : p.1 = t
    · simp [List.map_cons, hp]
    · rw [if_neg hp] at h
      simp only [List.map_cons, List.mem_cons]
      exact Or.inr (ih h)

lemma filter_length_le_of_imp {α : Type} (l : List α) (p q : α → Bool)
    (h : ∀ x, q x = true → p x = true) :
    (l.filter q).length ≤ (l.filter p).length := by
  induction l with
  | nil => simp
  | cons a rest ih =>
    rw [List.filter_cons, List.filter_cons]
    by_cases hq : q a = true
    · rw [if_pos hq, if_pos (h a hq)]
      simp only [List.length_cons]
      omega
    · rw [if_neg hq]
      by_cases hp : p a = true
      · rw [if_pos hp]
        simp only [List.length_cons]
        omega
      · rw [if_neg hp]
        exact ih

lemma filter_visited_length_lt (keys : List ℕ) (t : ℕ) (visited : List ℕ)
    (ht : t ∈ keys) (hv : t ∉ visited) :
    (keys.filter (fun k => decide (k ∉ t :: visited))).length
      < (keys.filter (fun k => decide (k ∉ visited))).length := by
  induction keys with
  | nil => simp at ht
  | cons a rest ih =>
    by_cases hat : a = t
    · subst hat
      rw [List.filter_cons, List.filter_cons]
      rw [if_neg (by simp : ¬((decide (a ∉ a :: visited)) = true))]
      rw [if_pos (show (decide (a ∉ visited)) = true by simpa using hv)]
      have hle := filter_length_le_of_imp rest
        (fun k => decide (k ∉ visited)) (fun k => decide (k ∉ a :: visited))
        (by intro x hx; simp only [decide_eq_true_eq, List.mem_cons] at hx ⊢; tauto)
      simp only [List.length_cons]
      omega
    · have ht2 : t ∈ rest := by
        rcases List.mem_cons.mp ht with h | h
        · exact absurd h.symm hat
        · exact h
      rw [List.filter_cons, List.filter_cons]
      have hsame : (decide (a ∉ t :: visited)) = (decide (a ∉ visited)) := by
        simp only [List.mem_cons]
        by_cases hav : a ∈ visited
        · simp [hav]
        · simp [hav, hat]
      rw [hsame]
      by_cases hd : (decide (a ∉ visited)) = true
      · rw [if_pos hd, if_pos hd]
        simp only [List.length_cons]
        have := ih ht2
        omega
      · rw [if_neg hd, if_neg hd]
        exact ih ht2

lemma resolve_sound (g : List (ℕ × List ℕ)) :
    ∀ (fuel t : ℕ) (visited : List ℕ) (x : ℕ),
    x ∈ resolve_go g fuel t visited → TransBlocker g t x := by
  intro fuel
  induction fuel with
  | zero => intro t visited x h; simp [resolve_go] at h
  | succ fuel ih =>
    intro t visited x h
    simp only [resolve_go] at h
    split at h
    · simp at h
    · rw [List.mem_append] at h
      rcases h with h | h
      · exact TransBlocker.direct h
      · rw [List.mem_flatten] at h
        obtain ⟨l, hl, hx⟩ := h
        rw [List.mem_map] at hl
        obtain ⟨b, hb, rfl⟩ := hl
        exact transBlocker_trans (TransBlocker.direct hb) (ih b (t :: visited) x hx)

lemma resolve_complete (g : List (ℕ × List ℕ)) (hacy : Acyclic g) :
    ∀ (t x : ℕ), TransBlocker g t x →
    ∀ (visited : List ℕ) (fuel : ℕ),
    (∀ v ∈ visited, TransBlocker g v t) →
    ((g.map Prod.fst).filter (fun k => decide (k ∉ visited))).length < fuel →
    x ∈ resolve_go g fuel t visited := by
  intro t x h
  induction h with
  | direct hb =>
    rename_i a b
    intro visited fuel hinv hfuel
    have hnv : a ∉ visited := fun hmem => hacy a (hinv a hmem)
    cases fuel with
    | zero => omega
    | succ fuel =>
      simp only [resolve_go]
      rw [if_neg hnv]
      exact List.mem_append_left _ hb
  | step hb hbc ih =>
    rename_i a b c
    intro visited fuel hinv hfuel
    have hnv : a ∉ visited := fun hmem => hacy a (hinv a hmem)
    have hkey : a ∈ g.map Prod.fst := lookupGraph_mem_keys (List.ne_nil_of_mem hb)
    cases fuel with
    | zero => omega
    | succ fuel =>
      simp only [resolve_go]
      rw [if_neg hnv]
      refine List.mem_append_right _ ?_
      rw [List.mem_flatten]
      refine ⟨resolve_go g fuel b (a :: visited), ?_, ?_⟩
      · rw [List.mem_map]
        exact ⟨b, hb, rfl⟩
      · apply ih
        · intro v hvmem
          rcases List.mem_cons.mp hvmem with rfl | hv
          · exact TransBlocker.direct hb
          · exact transBlocker_trans (hinv v hv) (TransBlocker.direct hb)
        · have hlt := filter_visited_length_lt (g.map Prod.fst) a visited hkey hnv
          omega

/-- Claim C10: _resolve_all_blocking_tasks is total on every finite graph, cyclic
ones included (the embedding uses fuel g.length + 1, shown sufficient by
resolve_complete); a task already on the current resolution path contributes no
further constraint (the branch returns the empty list); and on an acyclic graph the
returned list contains exactly the transitive blockers of the queried task. -/
theorem C10_resolve_blocking (g : List (ℕ × List ℕ)) (t : ℕ) :
    (∀ visited, t ∈ visited → _resolve_all_blocking_tasks g t visited = []) ∧
    (Acyclic g → ∀ x, x ∈ _resolve_all_blocking_tasks g t [] ↔ TransBlocker g t x) := by
  constructor
  · intro visited hv
    unfold _resolve_all_blocking_tasks
    simp only [resolve_go]
    rw [if_pos hv]
  · intro hacy x
    constructor
    · exact fun h => resolve_sound g _ t [] x h
    · intro h
      apply resolve_complete g hacy t x h [] (g.length + 1)
      · intro v hv
        simp at hv
      · have hle : ((g.map Prod.fst).filter
            (fun k => decide (k ∉ ([] : List ℕ)))).length ≤ (g.map Prod.fst).length :=
          List.length_filter_le _ _
        rw [List.length_map] at hle
        omega

lemma mem_lookup_chain2 (a b : ℕ) :
    ∀ u v : ℕ, v ∈ lookupGraph [(b, ([] : List ℕ)), (a, [b])] u → u = a ∧ v = b := by
  intro u v h
  by_cases hbu : b = u
  · simp [lookupGraph, dictLookup, hbu] at h
  · by_cases hau : a = u
    · simp [lookupGraph, dictLookup, hbu, hau] at h
      exact ⟨hau.symm, h⟩
    · simp [lookupGraph, dictLookup, hbu, hau] at h

lemma transBlocker_chain2 (a b : ℕ) (hab : b ≠ a) :
    ∀ x y : ℕ, TransBlocker [(b, ([] : List ℕ)), (a, [b])] x y → x = a ∧ y = b := by
  intro x y h
  induction h with
  | direct hd => exact mem_lookup_chain2 a b _ _ hd
  | step hd _ ih =>
    have h1 := mem_lookup_chain2 a b _ _ hd
    exact absurd (h1.2 ▸ ih.1) hab

lemma acyclic_chain2 (a b : ℕ) (hab : b ≠ a) :
    Acyclic [(b, ([] : List ℕ)), (a, [b])] := by
  intro x hx
  have h := transBlocker_chain2 a b hab x x hx
  exact hab (h.2 ▸ h.1)

/-- Witness for C10_resolve_blocking: the cyclic graph 5 blocked by 6 blocked by 5
resolves to nothing when 5 is already on the path, and on the acyclic graph 7 blocked
by 8 the resolution of 7 contains exactly its transitive blocker 8. -/
theorem C10_resolve_blocking_witness :
    _resolve_all_blocking_tasks [(5, [6]), (6, [5])] 5 [5] = [] ∧
    (8 ∈ _resolve_all_blocking_tasks [(8, ([] : List ℕ)), (7, [8])] 7 [] ↔
      TransBlocker [(8, ([] : List ℕ)), (7, [8])] 7 8) :=
  ⟨(C10_resolve_blocking [(5, [6]), (6, [5])] 5).1 [5] (by decide),
   (C10_resolve_blocking [(8, ([] : List ℕ)), (7, [8])] 7).2
     (acyclic_chain2 7 8 (by decide)) 8⟩

end EvanmSched

namespace EvanmSched

/-! ### Claim C2: the occupancy map never holds overlapping ranges -/

/-- Two occupancy entries do not overlap, with the overlap condition of
_slots_overlap: start1 < end2 and end1 > start2. -/
def entryDisjoint (p q : TimeSlot × ℕ) : Prop :=
  ¬(p.1.start < q.1.endTime ∧ p.1.endTime > q.1.start)

/-- Invariant of the occupancy map: every recorded slot is nondegenerate and the
recorded slots are pairwise non-overlapping. -/
def GoodOcc (occ : List (TimeSlot × ℕ)) : Prop :=
  (∀ p ∈ occ, p.1.start < p.1.endTime) ∧ occ.Pairwise entryDisjoint

lemma entryDisjoint_symm : Symmetric entryDisjoint := by
  intro p q h hcon
  exact h ⟨hcon.2, hcon.1⟩

lemma dictInsert_not_mem {α β : Type} [DecidableEq α] :
    ∀ (m : List (α × β)) (k : α) (v : β), (∀ p ∈ m, p.1 ≠ k) →
    dictInsert m k v = m ++ [(k, v)] := by
  intro m
  induction m with
  | nil => intro k v _; rfl
  | cons p rest ih =>
    intro k v h
    simp only [dictInsert]
    rw [if_neg (h p (List.mem_cons_self _ _))]
    rw [ih k v (fun q hq => h q (List.mem_cons_of_mem _ hq))]
    rfl

lemma run_from_covers (fd : ℕ) :
    ∀ (k : ℕ) (rest : List TimeSlot) (ce e : ℕ),
    run_from fd ce rest k = some e →
    ∀ x, ce ≤ x → x < e → ∃ s ∈ rest, s.start ≤ x ∧ x < s.endTime := by
  intro k
  induction k with
  | zero =>
    intro rest ce e h x h1 h2
    simp [run_from] at h
    omega
  | succ k ih =>
    intro rest ce e h x h1 h2
    cases rest with
    | nil => simp [run_from] at h
    | cons s rest2 =>
      simp only [run_from] at h
      split at h
      · rename_i hcond
        by_cases hx : x < s.endTime
        · exact ⟨s, List.mem_cons_self _ _, by omega, hx⟩
        · obtain ⟨t, ht, h3⟩ := ih rest2 s.endTime e h x (by omega) h2
          exact ⟨t, List.mem_cons_of_mem _ ht, h3⟩
      · exact absurd h (by simp)

lemma find_contiguous_covers :
    ∀ (slots : List TimeSlot) (needed a b : ℕ),
    _find_contiguous_slots slots needed = some (a, b) →
    ∀ x, a ≤ x → x < b → ∃ s ∈ slots, s.start ≤ x ∧ x < s.endTime := by
  intro slots
  induction slots with
  | nil => intro needed a b h; simp [_find_contiguous_slots] at h
  | cons s rest ih =>
    intro needed a b h x h1 h2
    simp only [_find_contiguous_slots] at h
    split at h
    · cases hrf : run_from (s.start / 1440) s.endTime rest (needed - 1) with
      | some e =>
        rw [hrf] at h
        simp at h
        obtain ⟨ha, hb⟩ := h
        by_cases hx : x < s.endTime
        · exact ⟨s, List.mem_cons_self _ _, by omega, hx⟩
        · obtain ⟨t, ht, h3⟩ := run_from_covers (s.start / 1440) (needed - 1) rest
            s.endTime e (by rw [hrf, hb]) x (by omega) (by omega)
          exact ⟨t, List.mem_cons_of_mem _ ht, h3⟩
      | none =>
        rw [hrf] at h
        obtain ⟨t, ht, h3⟩ := ih needed a b h x h1 h2
        exact ⟨t, List.mem_cons_of_mem _ ht, h3⟩
    · exact absurd h (by simp)

lemma find_range_covers (mgr : TimeSlotManager) (slots : List TimeSlot) (d : ℚ)
    (pb : Option ℕ) (a b : ℕ)
    (h : find_available_slot_range mgr slots d pb = some (a, b)) :
    ∀ x, a ≤ x → x < b → ∃ s ∈ slots, s.start ≤ x ∧ x < s.endTime := by
  intro x h1 h2
  unfold find_available_slot_range at h
  cases pb with
  | none => exact find_contiguous_covers slots _ a b h x h1 h2
  | some pbv =>
    simp only at h
    cases hfirst : _find_contiguous_slots
        (slots.filter (fun s => decide (s.start < pbv))) (slots_needed_for mgr d) with
    | some r =>
      rw [hfirst] at h
      simp at h
      subst h
      obtain ⟨t, ht, h3⟩ := find_contiguous_covers _ _ a b hfirst x h1 h2
      exact ⟨t, List.mem_of_mem_filter ht, h3⟩
    | none =>
      rw [hfirst] at h
      exact find_contiguous_covers slots _ a b h x h1 h2

lemma find_range_min_covers (mgr : TimeSlotManager) (slots : List TimeSlot) (d : ℚ)
    (pb : Option ℕ) (ms : Option ℕ) (a b : ℕ)
    (h : find_available_slot_range_min mgr slots d pb ms = some (a, b)) :
    ∀ x, a ≤ x → x < b → ∃ s ∈ slots, s.start ≤ x ∧ x < s.endTime := by
  intro x h1 h2
  unfold find_available_slot_range_min at h
  cases ms with
  | none => exact find_range_covers mgr slots d pb a b h x h1 h2
  | some m =>
    obtain ⟨t, ht, h3⟩ := find_range_covers mgr _ d pb a b h x h1 h2
    exact ⟨t, List.mem_of_mem_filter ht, h3⟩

lemma available_not_overlap (occ : List (TimeSlot × ℕ)) (all_slots : List TimeSlot) :
    ∀ s ∈ get_available_slots occ all_slots, ∀ p ∈ occ,
    ¬(s.start < p.1.endTime ∧ s.endTime > p.1.start) := by
  intro s hs p hp hcon
  unfold get_available_slots at hs
  rw [List.mem_filter] at hs
  have h2 := hs.2
  rw [Bool.not_eq_true'] at h2
  rw [List.any_eq_false] at h2
  have h3 := h2 p hp
  simp [_slots_overlap] at h3
  omega

lemma mark_go_good (dur end_time tid : ℕ) (hdur : 0 < dur) :
    ∀ (fuel : ℕ) (occ : List (TimeSlot × ℕ)) (current : ℕ),
    GoodOcc occ →
    (∀ p ∈ occ, ¬(current < p.1.endTime ∧ end_time > p.1.start)) →
    GoodOcc (mark_slots_go dur end_time tid fuel occ current) := by
  intro fuel
  induction fuel with
  | zero => intro occ current hgood _; exact hgood
  | succ fuel ih =>
    intro occ current hgood hdisj
    simp only [mark_slots_go]
    split
    · rename_i hlt
      have hfresh : ∀ p ∈ occ, p.1 ≠ (⟨current, min (current + dur) end_time⟩ : TimeSlot) := by
        intro p hp hcon
        apply hdisj p hp
        rw [hcon]
        constructor
        · simp only
          omega
        · simp only
          omega
      rw [dictInsert_not_mem occ _ tid hfresh]
      apply ih
      · constructor
        · intro p hp
          rcases List.mem_append.mp hp with h | h
          · exact hgood.1 p h
          · simp at h
            subst h
            simp only
            omega
        · rw [List.pairwise_append]
          refine ⟨hgood.2, List.pairwise_singleton _ _, ?_⟩
          intro p hp q hq
          simp at hq
          subst hq
          intro hcon
          apply hdisj p hp
          simp only at hcon
          constructor
          · omega
          · omega
      · intro p hp
        rcases List.mem_append.mp hp with h | h
        · intro hcon
          exact hdisj p h ⟨by omega, hcon.2⟩
        · simp at h
          subst h
          intro hcon
          simp only at hcon
          omega
    · exact hgood

lemma mark_occupied_good (mgr : TimeSlotManager) (occ : List (TimeSlot × ℕ))
    (a b tid : ℕ) (hgood : GoodOcc occ)
    (hdisj : a < b → ∀ p ∈ occ, ¬(a < p.1.endTime ∧ b > p.1.start)) :
    GoodOcc (mark_slots_occupied mgr occ a b tid) := by
  unfold mark_slots_occupied
  split
  · rename_i hdur
    by_cases hab : a < b
    · exact mark_go_good mgr.slot_duration_minutes b tid hdur (b - a) occ a hgood (hdisj hab)
    · have hz : b - a = 0 := by omega
      rw [hz]
      exact hgood
  · exact hgood

lemma process_task_good (mgr : TimeSlotManager) (upd : ℕ → Bool)
    (all_slots : List TimeSlot) (g : List (ℕ × List ℕ)) (bids : List ℕ)
    (st : SchedState) (task : NotionTask) (hgood : GoodOcc st.occupied) :
    GoodOcc (process_task mgr upd all_slots g bids st task).occupied := by
  simp only [process_task]
  repeat' split
  all_goals try simp only [bumpSkipped, bumpErrors]
  all_goals try exact hgood
  all_goals
    rename_i start_time end_time heq hupd hsd
    show GoodOcc (mark_slots_occupied mgr st.occupied start_time end_time task.id)
    apply mark_occupied_good mgr st.occupied start_time end_time task.id hgood
    intro hab p hp hcon
    have hx1 : start_time ≤ max start_time p.1.start := le_max_left _ _
    have hx2 : max start_time p.1.start < end_time := by
      have := hgood.1 p hp
      omega
    obtain ⟨sl, hsl, hsl2⟩ := find_range_min_covers mgr
      (get_available_slots st.occupied all_slots) _ _ _ _ _ heq
      (max start_time p.1.start) hx1 hx2
    apply available_not_overlap st.occupied all_slots sl hsl p hp
    have := hgood.1 p hp
    constructor
    · omega
    · omega

lemma schedule_from_good (mgr : TimeSlotManager) (upd : ℕ → Bool)
    (all_slots : List TimeSlot) (g : List (ℕ × List ℕ)) (bids : List ℕ) :
    ∀ (tasks : List NotionTask) (st : SchedState), GoodOcc st.occupied →
    GoodOcc (schedule_tasks_from mgr upd all_slots g bids st tasks).occupied := by
  intro tasks
  induction tasks with
  | nil => intro st h; exact h
  | cons t rest ih =>
    intro st h
    exact ih _ (process_task_good mgr upd all_slots g bids st t h)

/-- Claim C2: non-overlap invariant.  The first conjunct states the invariant at
every point during a cycle: after processing any prefix l1 of the batch l1 ++ l2, no
two entries of the Occupancy Map with distinct task identifiers overlap (overlap
meaning start1 < end2 and end1 > start2).  The second conjunct is the final state of
schedule_tasks on the whole batch. -/
theorem C2_occupancy_non_overlap (mgr : TimeSlotManager) (upd : ℕ → Bool) (now : ℕ)
    (l1 l2 : List NotionTask) :
    (∀ p ∈ (schedule_tasks_from mgr upd
        (generate_work_slots mgr now mgr.schedule_days_ahead now)
        (_build_dependency_graph (l1 ++ l2)) ((l1 ++ l2).map (fun t => t.id))
        initState l1).occupied,
      ∀ q ∈ (schedule_tasks_from mgr upd
        (generate_work_slots mgr now mgr.schedule_days_ahead now)
        (_build_dependency_graph (l1 ++ l2)) ((l1 ++ l2).map (fun t => t.id))
        initState l1).occupied,
      p.2 ≠ q.2 → ¬(p.1.start < q.1.endTime ∧ p.1.endTime > q.1.start)) ∧
    (∀ p ∈ (schedule_tasks mgr upd now (l1 ++ l2)).occupied,
      ∀ q ∈ (schedule_tasks mgr upd now (l1 ++ l2)).occupied,
      p.2 ≠ q.2 → ¬(p.1.start < q.1.endTime ∧ p.1.endTime > q.1.start)) := by
  have hinit : GoodOcc initState.occupied := ⟨by simp [initState], by simp [initState]⟩
  constructor
  · have hg := schedule_from_good mgr upd
      (generate_work_slots mgr now mgr.schedule_days_ahead now)
      (_build_dependency_graph (l1 ++ l2)) ((l1 ++ l2).map (fun t => t.id))
      l1 initState hinit
    intro p hp q hq hne
    by_cases hpq : p = q
    · subst hpq
      exact absurd rfl hne
    · exact hg.2.forall entryDisjoint_symm hp hq hpq
  · have hg := schedule_from_good mgr upd
      (generate_work_slots mgr now mgr.schedule_days_ahead now)
      (_build_dependency_graph (l1 ++ l2)) ((l1 ++ l2).map (fun t => t.id))
      (l1 ++ l2) initState hinit
    intro p hp q hq hne
    by_cases hpq : p = q
    · subst hpq
      exact absurd rfl hne
    · exact hg.2.forall entryDisjoint_symm hp hq hpq

set_option maxRecDepth 400000 in
/-- Witness for C2_occupancy_non_overlap: two one-hour tasks placed in one cycle
occupy the ranges 540-600 and 600-660, which do not overlap. -/
theorem C2_occupancy_non_overlap_witness :
    ((⟨540, 600⟩, 1) : TimeSlot × ℕ) ∈
      (schedule_tasks mgrSmall updAll monday9
        ([⟨1, some 1, none, none, []⟩] ++ [⟨2, some 1, none, none, []⟩])).occupied ∧
    ((⟨600, 660⟩, 2) : TimeSlot × ℕ) ∈
      (schedule_tasks mgrSmall updAll monday9
        ([⟨1, some 1, none, none, []⟩] ++ [⟨2, some 1, none, none, []⟩])).occupied ∧
    ¬((540 : ℕ) < 660 ∧ (600 : ℕ) > 600) := by
  refine ⟨by with_unfolding_all decide, by with_unfolding_all decide, ?_⟩
  exact (C2_occupancy_non_overlap mgrSmall updAll monday9
      [⟨1, some 1, none, none, []⟩] [⟨2, some 1, none, none, []⟩]).2
    (⟨540, 600⟩, 1) (by with_unfolding_all decide)
    (⟨600, 660⟩, 2) (by with_unfolding_all decide)
    (by decide)

end EvanmSched

namespace EvanmSched

/-! ### Claim C1: dependency ordering of placements -/

lemma dictLookup_insert_self {α β : Type} [DecidableEq α] :
    ∀ (m : List (α × β)) (k : α) (v : β), dictLookup (dictInsert m k v) k = some v := by
  intro m
  induction m with
  | nil =>
    intro k v
    simp [dictInsert, dictLookup]
  | cons p rest ih =>
    intro k v
    simp only [dictInsert]
    by_cases hp : p.1 = k
    · rw [if_pos hp]
      simp [dictLookup]
    · rw [if_neg hp]
      simp only [dictLookup]
      rw [if_neg hp]
      exact ih k v

lemma dictLookup_insert_ne {α β : Type} [DecidableEq α] :
    ∀ (m : List (α × β)) (k id : α) (v : β), k ≠ id →
    dictLookup (dictInsert m k v) id = dictLookup m id := by
  intro m
  induction m with
  | nil =>
    intro k id v hne
    simp [dictInsert, dictLookup, hne]
  | cons p rest ih =>
    intro k id v hne
    simp only [dictInsert]
    by_cases hp : p.1 = k
    · rw [if_pos hp]
      simp only [dictLookup]
      rw [if_neg hne, if_neg (hp ▸ hne)]
    · rw [if_neg hp]
      simp only [dictLookup]
      by_cases hid : p.1 = id
      · rw [if_pos hid, if_pos hid]
      · rw [if_neg hid, if_neg hid]
        exact ih k id v hne

lemma process_preserves_sched (mgr : TimeSlotManager) (upd : ℕ → Bool)
    (all_slots : List TimeSlot) (g : List (ℕ × List ℕ)) (bids : List ℕ)
    (st : SchedState) (task : NotionTask) (id : ℕ) (hne : task.id ≠ id) :
    dictLookup (process_task mgr upd all_slots g bids st task).scheduled_tasks id
      = dictLookup st.scheduled_tasks id := by
  simp only [process_task]
  repeat' split
  all_goals try rfl
  all_goals exact dictLookup_insert_ne _ _ _ _ hne

lemma fold_preserves_sched (mgr : TimeSlotManager) (upd : ℕ → Bool)
    (all_slots : List TimeSlot) (g : List (ℕ × List ℕ)) (bids : List ℕ) :
    ∀ (tasks : List NotionTask) (st : SchedState) (id : ℕ),
    id ∉ tasks.map (fun t => t.id) →
    dictLookup (schedule_tasks_from mgr upd all_slots g bids st tasks).scheduled_tasks id
      = dictLookup st.scheduled_tasks id := by
  intro tasks
  induction tasks with
  | nil => intro st id _; rfl
  | cons t rest ih =>
    intro st id h
    simp only [List.map_cons, List.mem_cons] at h
    push_neg at h
    simp only [schedule_tasks_from, List.foldl_cons]
    have h1 := ih (process_task mgr upd all_slots g bids st t) id h.2
    simp only [schedule_tasks_from] at h1
    rw [h1]
    exact process_preserves_sched mgr upd all_slots g bids st t id
      (fun hc => h.1 hc.symm)

lemma fold_new_sched (mgr : TimeSlotManager) (upd : ℕ → Bool)
    (all_slots : List TimeSlot) (g : List (ℕ × List ℕ)) (bids : List ℕ) :
    ∀ (tasks : List NotionTask) (st : SchedState) (id : ℕ) (v : ℕ × ℕ),
    dictLookup (schedule_tasks_from mgr upd all_slots g bids st tasks).scheduled_tasks id
      = some v →
    dictLookup st.scheduled_tasks id = some v ∨ id ∈ tasks.map (fun t => t.id) := by
  intro tasks
  induction tasks with
  | nil => intro st id v h; exact Or.inl h
  | cons t rest ih =>
    intro st id v h
    simp only [schedule_tasks_from, List.foldl_cons] at h
    rcases ih (process_task mgr upd all_slots g bids st t) id v h with h2 | h2
    · by_cases hid : t.id = id
      · exact Or.inr (by simp [hid])
      · rw [process_preserves_sched mgr upd all_slots g bids st t id hid] at h2
        exact Or.inl h2
    · exact Or.inr (by simp [h2])

lemma foldl_max_init_le : ∀ (l : List ℕ) (a : ℕ), a ≤ l.foldl max a := by
  intro l
  induction l with
  | nil => intro a; simp
  | cons x rest ih =>
    intro a
    simp only [List.foldl_cons]
    exact le_trans (le_max_left a x) (ih (max a x))

lemma mem_le_foldl_max : ∀ (l : List ℕ) (a x : ℕ), x ∈ l → x ≤ l.foldl max a := by
  intro l
  induction l with
  | nil => intro a x h; simp at h
  | cons y rest ih =>
    intro a x h
    simp only [List.foldl_cons]
    rcases List.mem_cons.mp h with h | h
    · subst h
      exact le_trans (le_max_right a x) (foldl_max_init_le rest (max a x))
    · exact ih (max a y) x h

lemma find_range_start_mem (mgr : TimeSlotManager) (slots : List TimeSlot) (d : ℚ)
    (pb : Option ℕ) (a b : ℕ)
    (h : find_available_slot_range mgr slots d pb = some (a, b)) :
    ∃ s ∈ slots, s.start = a := by
  unfold find_available_slot_range at h
  cases pb with
  | none => exact find_contiguous_start_mem slots _ a b h
  | some pbv =>
    simp only at h
    cases hfirst : _find_contiguous_slots
        (slots.filter (fun s => decide (s.start < pbv))) (slots_needed_for mgr d) with
    | some r =>
      rw [hfirst] at h
      simp at h
      subst h
      obtain ⟨t, ht, hta⟩ := find_contiguous_start_mem _ _ a b hfirst
      exact ⟨t, List.mem_of_mem_filter ht, hta⟩
    | none =>
      rw [hfirst] at h
      exact find_contiguous_start_mem slots _ a b h

lemma find_range_min_ge (mgr : TimeSlotManager) (slots : List TimeSlot) (d : ℚ)
    (pb : Option ℕ) (m a b : ℕ)
    (h : find_available_slot_range_min mgr slots d pb (some m) = some (a, b)) :
    m ≤ a := by
  unfold find_available_slot_range_min at h
  obtain ⟨s, hs, hsa⟩ := find_range_start_mem mgr _ d pb a b h
  rw [List.mem_filter] at hs
  have := hs.2
  simp only [decide_eq_true_eq] at this
  omega

lemma process_placed_blocker_bound (mgr : TimeSlotManager) (upd : ℕ → Bool)
    (all_slots : List TimeSlot) (g : List (ℕ × List ℕ)) (bids : List ℕ)
    (st : SchedState) (task : NotionTask) (sb eb : ℕ)
    (h : dictLookup (process_task mgr upd all_slots g bids st task).scheduled_tasks
      task.id = some (sb, eb)) :
    dictLookup st.scheduled_tasks task.id = some (sb, eb) ∨
    (∀ a ∈ _resolve_all_blocking_tasks g task.id [],
      ∃ p : ℕ × ℕ, dictLookup st.scheduled_tasks a = some p ∧ p.2 ≤ sb) := by
  simp only [process_task] at h
  repeat' split at h
  all_goals try exact Or.inl h
  all_goals
    rename_i hdur0 hnon huns hx1 hx2 hx3 start_time end_time heq hupd hsd
    right
    intro a ha
    have hein : dictLookup (dictInsert st.scheduled_tasks task.id (start_time, end_time))
        task.id = some (start_time, end_time) := dictLookup_insert_self _ _ _
    have hseb : start_time = sb ∧ end_time = eb := by
      have h2 : dictLookup (dictInsert st.scheduled_tasks task.id (start_time, end_time))
          task.id = some (sb, eb) := h
      rw [hein] at h2
      simp at h2
      exact h2
    have hbne : _resolve_all_blocking_tasks g task.id [] ≠ [] := List.ne_nil_of_mem ha
    have hnon2 : (_resolve_all_blocking_tasks g task.id []).filter
        (fun b => decide (dictLookup st.scheduled_tasks b = none)
          && !decide (b ∈ bids)) = [] := by
      by_contra hc
      exact hnon ⟨hbne, hc⟩
    have huns2 : (_resolve_all_blocking_tasks g task.id []).filter
        (fun b => decide (dictLookup st.scheduled_tasks b = none)
          && decide (b ∈ bids)) = [] := by
      by_contra hc
      exact huns ⟨hbne, hc⟩
    have hlook : dictLookup st.scheduled_tasks a ≠ none := by
      intro hl
      by_cases hab : a ∈ bids
      · have hmem : a ∈ (_resolve_all_blocking_tasks g task.id []).filter
            (fun b => decide (dictLookup st.scheduled_tasks b = none)
              && decide (b ∈ bids)) := by
          rw [List.mem_filter]
          exact ⟨ha, by simp [hl, hab]⟩
        rw [huns2] at hmem
        simp at hmem
      · have hmem : a ∈ (_resolve_all_blocking_tasks g task.id []).filter
            (fun b => decide (dictLookup st.scheduled_tasks b = none)
              && !decide (b ∈ bids)) := by
          rw [List.mem_filter]
          exact ⟨ha, by simp [hl, hab]⟩
        rw [hnon2] at hmem
        simp at hmem
    obtain ⟨p, hp⟩ := Option.ne_none_iff_exists.mp hlook
    refine ⟨p, hp.symm, ?_⟩
    have hpmem : p.2 ∈ (_resolve_all_blocking_tasks g task.id []).filterMap
        (fun b => (dictLookup st.scheduled_tasks b).map Prod.snd) := by
      rw [List.mem_filterMap]
      exact ⟨a, ha, by rw [← hp]; rfl⟩
    have hendne : (_resolve_all_blocking_tasks g task.id []).filterMap
        (fun b => (dictLookup st.scheduled_tasks b).map Prod.snd) ≠ [] :=
      List.ne_nil_of_mem hpmem
    rw [if_pos ⟨hbne, hendne⟩] at heq
    have hge := find_range_min_ge mgr (get_available_slots st.occupied all_slots)
      (extract_duration task.duration_raw) task.due_date _ start_time end_time heq
    have hmax := mem_le_foldl_max _ 0 p.2 hpmem
    omega

end EvanmSched

namespace EvanmSched

lemma ordering_aux (mgr : TimeSlotManager) (upd : ℕ → Bool) (allS : List TimeSlot)
    (g : List (ℕ × List ℕ)) (bids : List ℕ) (l1 l2 : List NotionTask) (B : NotionTask)
    (aId sa ea sb eb : ℕ)
    (hbl1 : B.id ∉ l1.map (fun t => t.id))
    (hbl2 : B.id ∉ l2.map (fun t => t.id))
    (hdisj : ∀ x ∈ l1.map (fun t => t.id), x ∉ l2.map (fun t => t.id))
    (hane : aId ≠ B.id)
    (hamem : aId ∈ _resolve_all_blocking_tasks g B.id [])
    (ha : dictLookup (schedule_tasks_from mgr upd allS g bids initState
      (l1 ++ B :: l2)).scheduled_tasks aId = some (sa, ea))
    (hb : dictLookup (schedule_tasks_from mgr upd allS g bids initState
      (l1 ++ B :: l2)).scheduled_tasks B.id = some (sb, eb)) :
    ea ≤ sb := by
  have hfold : schedule_tasks_from mgr upd allS g bids initState (l1 ++ B :: l2)
      = schedule_tasks_from mgr upd allS g bids
          (process_task mgr upd allS g bids
            (schedule_tasks_from mgr upd allS g bids initState l1) B) l2 := by
    simp only [schedule_tasks_from, List.foldl_append, List.foldl_cons]
  rw [hfold] at ha hb
  have hb2 : dictLookup (process_task mgr upd allS g bids
      (schedule_tasks_from mgr upd allS g bids initState l1) B).scheduled_tasks B.id
      = some (sb, eb) := by
    rw [← fold_preserves_sched mgr upd allS g bids l2 _ B.id hbl2]
    exact hb
  have hstBnone : dictLookup (schedule_tasks_from mgr upd allS g bids initState
      l1).scheduled_tasks B.id = none := by
    rw [fold_preserves_sched mgr upd allS g bids l1 initState B.id hbl1]
    rfl
  rcases process_placed_blocker_bound mgr upd allS g bids _ B sb eb hb2 with h | h
  · rw [hstBnone] at h
    exact absurd h (by simp)
  · obtain ⟨p, hp, hple⟩ := h aId hamem
    have hal1 : aId ∈ l1.map (fun t => t.id) := by
      rcases fold_new_sched mgr upd allS g bids l1 initState aId p hp with h2 | h2
      · simp [initState, dictLookup] at h2
      · exact h2
    have hal2 : aId ∉ l2.map (fun t => t.id) := hdisj aId hal1
    have hfin : dictLookup (schedule_tasks_from mgr upd allS g bids
        (process_task mgr upd allS g bids
          (schedule_tasks_from mgr upd allS g bids initState l1) B) l2).scheduled_tasks
        aId = some p := by
      rw [fold_preserves_sched mgr upd allS g bids l2 _ aId hal2]
      rw [process_preserves_sched mgr upd allS g bids _ B aId (fun hc => hane hc.symm)]
      exact hp
    rw [hfin] at ha
    simp only [Option.some.injEq] at ha
    subst ha
    exact hple

/-- Claim C1: dependency ordering.  For a batch with distinct task identifiers and an
acyclic dependency graph, if task bId is transitively blocked by task aId and
schedule_tasks places both in the same cycle, the placed start of bId is at least the
placed end of aId: the placement search for bId receives minimum_start equal to the
maximum end time of its placed blockers.  The minimum_start handling of the search is
modelled from the spec, since the src time_slots.py lacks the parameter its caller
passes. -/
theorem C1_dependency_ordering (mgr : TimeSlotManager) (upd : ℕ → Bool) (now : ℕ)
    (tasks : List NotionTask)
    (hnd : (tasks.map (fun t => t.id)).Nodup)
    (hacy : Acyclic (_build_dependency_graph tasks))
    (aId bId sa ea sb eb : ℕ)
    (hblk : TransBlocker (_build_dependency_graph tasks) bId aId)
    (ha : dictLookup (schedule_tasks mgr upd now tasks).scheduled_tasks aId
      = some (sa, ea))
    (hb : dictLookup (schedule_tasks mgr upd now tasks).scheduled_tasks bId
      = some (sb, eb)) :
    ea ≤ sb := by
  have hane : aId ≠ bId := by
    intro hc
    exact hacy bId (hc ▸ hblk)
  simp only [schedule_tasks] at ha hb
  have hbmem : bId ∈ tasks.map (fun t => t.id) := by
    rcases fold_new_sched mgr upd _ _ _ tasks initState bId (sb, eb) hb with h | h
    · simp [initState, dictLookup] at h
    · exact h
  obtain ⟨B, hBmem, hBid⟩ := List.mem_map.mp hbmem
  obtain ⟨l1, l2, hsplit⟩ := List.append_of_mem hBmem
  subst hsplit
  rw [List.map_append, List.map_cons, List.nodup_append] at hnd
  obtain ⟨hnd1, hnd2, hdisj⟩ := hnd
  have hbl1 : B.id ∉ l1.map (fun t => t.id) := by
    intro hc
    exact hdisj hc (List.mem_cons_self _ _)
  have hbl2 : B.id ∉ l2.map (fun t => t.id) := (List.nodup_cons.mp hnd2).1
  have hdisj2 : ∀ x ∈ l1.map (fun t => t.id), x ∉ l2.map (fun t => t.id) := by
    intro x hx hx2
    exact hdisj hx (List.mem_cons_of_mem _ hx2)
  have hamem : aId ∈ _resolve_all_blocking_tasks
      (_build_dependency_graph (l1 ++ B :: l2)) B.id [] := by
    rw [hBid]
    simp only [_resolve_all_blocking_tasks]
    apply resolve_complete (_build_dependency_graph (l1 ++ B :: l2)) hacy bId aId hblk
    · intro v hv
      simp at hv
    · have hle : (((_build_dependency_graph (l1 ++ B :: l2)).map Prod.fst).filter
          (fun k => decide (k ∉ ([] : List ℕ)))).length
          ≤ ((_build_dependency_graph (l1 ++ B :: l2)).map Prod.fst).length :=
        List.length_filter_le _ _
      rw [List.length_map] at hle
      omega
  exact ordering_aux mgr upd _ _ _ l1 l2 B aId sa ea sb eb hbl1 hbl2 hdisj2
    (fun hc => hane (hc.trans hBid)) hamem ha (by rw [hBid]; exact hb)

end EvanmSched

namespace EvanmSched

set_option maxRecDepth 400000 in
/-- Witness for C1_dependency_ordering: task 1 (one hour, no blockers) and task 2
(one hour, blocked by task 1); both are placed in one cycle, task 1 at 540-600 and
task 2 at 600-660, so the dependent starts no earlier than its blocker ends. -/
theorem C1_dependency_ordering_witness :
    dictLookup (schedule_tasks mgrSmall updAll monday9
      [⟨1, some 1, none, none, []⟩, ⟨2, some 1, none, none, [1]⟩]).scheduled_tasks 1
      = some (540, 600) ∧
    dictLookup (schedule_tasks mgrSmall updAll monday9
      [⟨1, some 1, none, none, []⟩, ⟨2, some 1, none, none, [1]⟩]).scheduled_tasks 2
      = some (600, 660) ∧
    (600 : ℕ) ≤ 600 := by
  refine ⟨by with_unfolding_all decide, by with_unfolding_all decide, ?_⟩
  have hg : _build_dependency_graph
      [⟨1, some 1, none, none, []⟩, ⟨2, some 1, none, none, [1]⟩]
      = [(1, ([] : List ℕ)), (2, [1])] := by with_unfolding_all decide
  exact C1_dependency_ordering mgrSmall updAll monday9
    [⟨1, some 1, none, none, []⟩, ⟨2, some 1, none, none, [1]⟩]
    (by with_unfolding_all decide)
    (by rw [hg]; exact acyclic_chain2 2 1 (by decide))
    1 2 540 600 600 660
    (by rw [hg]; exact TransBlocker.direct (by decide))
    (by with_unfolding_all decide) (by with_unfolding_all decide)

/-! ### Claim C4: a skipped task does not keep its prior slots -/

set_option maxRecDepth 400000 in
/-- Claim C4 evaluated at the failing input (the scenario of the repository test
test_skipped_task_preserves_existing_schedule, test_scheduling_algorithm.py lines
44-91): task 1 has a prior window Monday 09:00-10:00 and is skipped because its
blocker, task 3, is later in the batch; schedule_tasks does not re-mark the prior
window, so the next task (id 2) is placed directly on top of it (the slot 540-600 is
held by task 2) and task 1 appears nowhere in the Occupancy Map, while the test
asserts the slot stays with task 1 and task 2 starts at 600. -/
theorem C4_skipped_prior_window_evaluation :
    dictLookup (schedule_tasks mgrSmall updAll monday9
      [⟨1, some 1, none, some (540, some 600), [3]⟩,
       ⟨2, some 1, none, none, []⟩,
       ⟨3, some 1, none, none, []⟩]).occupied ⟨540, 600⟩ = some 2 ∧
    (∀ p ∈ (schedule_tasks mgrSmall updAll monday9
      [⟨1, some 1, none, some (540, some 600), [3]⟩,
       ⟨2, some 1, none, none, []⟩,
       ⟨3, some 1, none, none, []⟩]).occupied, p.2 ≠ 1) ∧
    (schedule_tasks mgrSmall updAll monday9
      [⟨1, some 1, none, some (540, some 600), [3]⟩,
       ⟨2, some 1, none, none, []⟩,
       ⟨3, some 1, none, none, []⟩]).stats.skipped = 1 := by
  refine ⟨?_, ?_, ?_⟩
  · with_unfolding_all decide
  · with_unfolding_all decide
  · with_unfolding_all decide

end EvanmSched
